import Mathlib

/-!
# Verification of the LessonsHub chunking-and-retrieval core

Shallow embedding of the repository's algorithmic core:

* `src/lesson14/wiki_data/bak/wiki_parser.py` — the budget-balanced chunker
  (`halved_by_delimiter`, `truncated_string`, `split_strings_from_subsection`);
* `src/lesson14/wiki_data/wiki_parser.py` — the text normalizer (`clean_text`);
* `src/lesson14/chatbot03/knowledge_base.py` — the knowledge-base index
  (`KnowledgeBase.load`, `KnowledgeBase.search`).

Python text is modelled as `List Char` (named `Str` below) for the chunker and
normalizer, so that `str.split` / `str.join` / `re.sub` can be given faithful
executable definitions with provable algebraic properties.  Embedding vectors
are modelled over `ℚ`; the floating-point square root used by
`np.linalg.norm` is passed in as an explicit function parameter, as are the
external collaborators (the tiktoken tokenizer and the embedding gateway),
which are not part of this repository.
-/

/-- Python strings as character lists. -/
abbrev Str : Type := List Char

/-- The characters matched by Python's `\s` (ASCII part), also used by
`str.strip`.  The repository's inputs contain only ASCII whitespace. -/
def pyIsSpace (c : Char) : Bool :=
  c = ' ' || c = '\t' || c = '\n' || c = '\r' || c = '\x0b' || c = '\x0c'

/-- Python `str.strip()`: drop whitespace from both ends. -/
def pyStrip (s : Str) : Str :=
  ((s.dropWhile pyIsSpace).reverse.dropWhile pyIsSpace).reverse

/-! ## `str.split(delimiter)` and `delimiter.join(pieces)` -/

/-- Worker for `str.split`: scans `s` left to right; whenever the (nonempty)
delimiter `d0 :: dr` is a prefix, the accumulated piece (held reversed in
`acc`) is emitted and scanning resumes after the delimiter.  `fuel` bounds the
scan length (any `fuel ≥ s.length` gives the real behaviour); it keeps the
recursion structural so that the definition evaluates inside the kernel. -/
def splitGoF (d0 : Char) (dr : Str) : ℕ → Str → Str → List Str
  | _, [], acc => [acc.reverse]
  | 0, s, acc => [acc.reverse ++ s]
  | fuel + 1, c :: rest, acc =>
    if (d0 :: dr).isPrefixOf (c :: rest) then
      acc.reverse :: splitGoF d0 dr fuel (rest.drop dr.length) []
    else
      splitGoF d0 dr fuel rest (c :: acc)

/-- Python `string.split(delimiter)` for a nonempty delimiter (Python raises
`ValueError` on an empty separator; we return `[s]` in that unreachable case —
the chunker only ever passes `"\n\n"`, `"\n"`, `". "`). -/
def splitOnL (d s : Str) : List Str :=
  match d with
  | [] => [s]
  | d0 :: dr => splitGoF d0 dr s.length s []

/-- Python `delimiter.join(pieces)`. -/
def intercalateL (d : Str) : List Str → Str
  | [] => []
  | [x] => x
  | x :: y :: rest => x ++ d ++ intercalateL d (y :: rest)

/-! ## The budget-balanced chunker (`src/lesson14/wiki_data/bak/wiki_parser.py`)

The tokenizer is external (`tiktoken`); it enters the embedding as an explicit
`encode : Str → List Str` parameter (a token is its decoded text, so decoding
a token sequence is concatenation, as in BPE), and the size measure
`num_tokens` is its token count.  `halved_by_delimiter` is parameterised by
the size measure `tok` alone, exactly as it only calls `num_tokens`. -/

/-- Model of `abs(halfway - left_tokens)` for the prefix of `k + 1` pieces: the figure
of merit the balance loop tracks. -/
def prefixDiff (tok : Str → ℕ) (delim : Str) (chunks : List Str) (halfway k : ℕ) : ℕ :=
  Nat.dist halfway (tok (intercalateL delim (chunks.take (k + 1))))

/-- The balance loop of `halved_by_delimiter`: starting at piece index `i`
with current best difference `best`, walk right while the difference
strictly improves; return the index at which the loop stops (`fuel` is the
number of further iterations the `for` loop could still run, i.e.
`chunks.length - 1 - i`; it makes the recursion structural). -/
def balanceGoF (tok : Str → ℕ) (delim : Str) (chunks : List Str) (halfway : ℕ) :
    ℕ → ℕ → ℕ → ℕ
  | fuel, i, best =>
    if best ≤ prefixDiff tok delim chunks halfway i then i
    else
      match fuel with
      | 0 => i
      | fuel + 1 => balanceGoF tok delim chunks halfway fuel (i + 1)
          (prefixDiff tok delim chunks halfway i)

/-- Index at which the balance loop of `halved_by_delimiter` leaves `i`. -/
def balanceScan (tok : Str → ℕ) (delim : Str) (chunks : List Str) (halfway : ℕ) : ℕ :=
  balanceGoF tok delim chunks halfway (chunks.length - 1) 0 halfway

/-- Body of `halved_by_delimiter` once the pieces are known. -/
def halvedCore (tok : Str → ℕ) (string delimiter : Str) (chunks : List Str) : Str × Str :=
  match chunks with
  | [] => (string, [])
  | [_] => (string, [])
  | [a, b] => (a, b)
  | chunks@(_ :: _ :: _ :: _) =>
    let total_tokens := tok string
    let halfway := total_tokens / 2
    let i := balanceScan tok delimiter chunks halfway
    (intercalateL delimiter (chunks.take i), intercalateL delimiter (chunks.drop i))

/-- Model of `halved_by_delimiter(string, delimiter)`: split `string` in two at a
delimiter boundary, balancing the measured size on each side
(`src/lesson14/wiki_data/bak/wiki_parser.py`, lines 187–214).  The Python
function returns the two-element list `[left, right]`; we return the pair. -/
def halved_by_delimiter (tok : Str → ℕ) (string delimiter : Str) : Str × Str :=
  halvedCore tok string delimiter (splitOnL delimiter string)

/-- Model of `num_tokens(text)`: token count of the external `tiktoken` encoding
(`len(encoding.encode(text))`, lines 181–184); the encoder is the explicit
parameter `encode`, a token being represented by its decoded text. -/
def num_tokens (encode : Str → List Str) (text : Str) : ℕ :=
  (encode text).length

/-- Model of `truncated_string(string, model, max_tokens)`
(lines 218–232): encode, keep the first `max_tokens` tokens, decode.  In this
model decoding a token sequence concatenates the tokens' texts (as BPE
decoding concatenates token byte strings); the `print_warning` flag only
prints and is dropped. -/
def truncated_string (encode : Str → List Str) (string : Str) (max_tokens : ℕ) : Str :=
  ((encode string).take max_tokens).flatten

/-- The delimiter loop of `split_strings_from_subsection`: try each delimiter
in order and return the first pair of halves that are both nonempty
(`continue` otherwise). -/
def firstGoodSplit (tok : Str → ℕ) (text : Str) : List Str → Option (Str × Str)
  | [] => none
  | d :: ds =>
    let lr := halved_by_delimiter tok text d
    if lr.1 = [] ∨ lr.2 = [] then firstGoodSplit tok text ds
    else some lr

/-- Model of `split_strings_from_subsection((titles, text), max_tokens, model,
max_recursion)` (lines 235–276): the candidate string joins the labels and
the body with blank lines; if it fits the budget it is returned whole; if the
recursion ceiling is exhausted it is truncated; otherwise the body is halved
at the first workable delimiter out of `["\n\n", "\n", ". "]` and both halves
are processed recursively with the same labels, falling back to truncation
when no delimiter yields two nonempty halves. -/
def split_strings_from_subsection (encode : Str → List Str)
    (subsection : List Str × Str) (max_tokens : ℕ) (max_recursion : ℕ) : List Str :=
  let titles := subsection.1
  let text := subsection.2
  let string := intercalateL ("\n\n".data) (titles ++ [text])
  if num_tokens encode string ≤ max_tokens then [string]
  else
    match max_recursion with
    | 0 => [truncated_string encode string max_tokens]
    | mr + 1 =>
      match firstGoodSplit (num_tokens encode) text ["\n\n".data, "\n".data, ". ".data] with
      | some lr =>
        split_strings_from_subsection encode (titles, lr.1) max_tokens mr ++
          split_strings_from_subsection encode (titles, lr.2) max_tokens mr
      | none => [truncated_string encode string max_tokens]

/-- Fuel-indexed variant of `split_strings_from_subsection`: each recursive
self-call consumes one unit of fuel and exhausted fuel reports `none`.  Used
to state that the recursion depth of `split` is bounded. -/
def splitFuel (encode : Str → List Str) :
    ℕ → List Str × Str → ℕ → ℕ → Option (List Str)
  | 0, _, _, _ => none
  | fuel + 1, subsection, max_tokens, max_recursion =>
    let titles := subsection.1
    let text := subsection.2
    let string := intercalateL ("\n\n".data) (titles ++ [text])
    if num_tokens encode string ≤ max_tokens then some [string]
    else
      match max_recursion with
      | 0 => some [truncated_string encode string max_tokens]
      | mr + 1 =>
        match firstGoodSplit (num_tokens encode) text ["\n\n".data, "\n".data, ". ".data] with
        | some lr =>
          match splitFuel encode fuel (titles, lr.1) max_tokens mr,
              splitFuel encode fuel (titles, lr.2) max_tokens mr with
          | some L, some R => some (L ++ R)
          | _, _ => none
        | none => some [truncated_string encode string max_tokens]

/-- Depth of the tree of recursive self-calls `split_strings_from_subsection`
makes on a given input (`0` when it returns without recursing). -/
def splitCallDepth (encode : Str → List Str)
    (subsection : List Str × Str) (max_tokens : ℕ) : ℕ → ℕ
  | 0 => 0
  | mr + 1 =>
    let titles := subsection.1
    let text := subsection.2
    let string := intercalateL ("\n\n".data) (titles ++ [text])
    if num_tokens encode string ≤ max_tokens then 0
    else
      match firstGoodSplit (num_tokens encode) text ["\n\n".data, "\n".data, ". ".data] with
      | some lr =>
        1 + Nat.max (splitCallDepth encode (titles, lr.1) max_tokens mr)
          (splitCallDepth encode (titles, lr.2) max_tokens mr)
      | none => 0

/-- The single-character tokenizer: every character is a token.  A lossless
tokenizer usable as the external `tiktoken` parameter in witnesses. -/
def encChar : Str → List Str := fun s => s.map (fun c => [c])

/-- A tokenizer witnessing the counterexample to C3's "largest prefix"
clause: it tokenizes `"abc"` as `["ab", "c"]` and any other string one
character per token, so the decoded one-token prefix `"ab"` re-tokenizes
into two tokens. -/
def encCE3 : Str → List Str := fun s =>
  if s = "abc".data then ["ab".data, "c".data] else s.map (fun c => [c])

/-- Modelled from the spec's words, for comparison only: "the largest prefix
of the candidate string whose measured size fits the budget" — the prefix of
maximal length among those measuring within `max`. -/
def claimLargestPrefixFitting (sizeFn : Str → ℕ) (s : Str) (max : ℕ) : Str :=
  s.take (((List.range (s.length + 1)).filter (fun k => sizeFn (s.take k) ≤ max)).foldl
    Nat.max 0)

/-! ## The knowledge-base index (`src/lesson14/chatbot03/knowledge_base.py`)

Embedding vectors are `List ℚ`; the floating-point square root inside
`np.linalg.norm(v) = sqrt(v·v)` is the explicit parameter `sqrtFn`, and the
external embedding gateway (`gpt_client.get_embedding`) is the explicit
parameter `embed`.  A CSV record (`page_title`, `section`, `chunk_id`,
`text`, parsed `embedding`) is a `KBRow`; the CSV reading and JSON parsing of
`_parse_embedding` are the external I/O boundary and rows arrive already
typed. -/

/-- Dot product of two rational vectors (`numpy` requires equal lengths; the
model zips and ignores any overhang). -/
def dotQ : List ℚ → List ℚ → ℚ
  | a :: as, b :: bs => a * b + dotQ as bs
  | _, _ => 0

/-- Squared L2 norm, so that `np.linalg.norm v = sqrtFn (norm2 v)`. -/
def norm2 (v : List ℚ) : ℚ := dotQ v v

/-- One record of the knowledge-base CSV, embedding already parsed. -/
structure KBRow where
  page_title : String
  «section» : String
  chunk_id : ℕ
  text : String
  embedding : List ℚ
deriving DecidableEq

/-- Errors surfaced by `load` (`np.vstack` raises `ValueError` both on an
empty batch and on ragged rows; the spec calls the ragged case
`ShapeMismatch`). -/
inductive KBError where
  | emptyBatch : KBError
  | shapeMismatch : KBError
deriving DecidableEq

/-- Error surfaced by `search` before `load`
(`RuntimeError("Knowledge base must be loaded before calling search().")`). -/
inductive SearchError where
  | notLoaded : SearchError
deriving DecidableEq

/-- The `KnowledgeBase` dataclass: `_df` and `_embedding_matrix` start as
`None` and are filled by a successful `load`. -/
structure KnowledgeBase where
  name : String
  csv_url : String
  _df : Option (List KBRow) := none
  _embedding_matrix : Option (List (List ℚ)) := none
deriving DecidableEq

/-- Row normalisation performed by `load`: divide by the row's L2 norm,
zero norms being replaced by `1e-9` first
(`norms[norms == 0] = 1e-9; embeddings / norms`). -/
def npNormalizeRow (sqrtFn : ℚ → ℚ) (v : List ℚ) : List ℚ :=
  let n := sqrtFn (norm2 v)
  let n := if n = 0 then 1 / 1000000000 else n
  v.map (fun x => x / n)

/-- Model of `KnowledgeBase.load` (lines 29–43).  The CSV has been read and parsed
into `rows`; `np.vstack` fails on an empty or ragged batch, in which case the
exception propagates before either field is assigned, so the returned state
is the original one together with the error.  On success both fields are
replaced by the new batch. -/
def KnowledgeBase.load (sqrtFn : ℚ → ℚ) (kb : KnowledgeBase) (rows : List KBRow) :
    KnowledgeBase × Option KBError :=
  match rows with
  | [] => (kb, some KBError.emptyBatch)
  | r :: rest =>
    if rest.all (fun r2 => r2.embedding.length == r.embedding.length) then
      ({ kb with
          _df := some (r :: rest),
          _embedding_matrix :=
            some ((r :: rest).map (fun row => npNormalizeRow sqrtFn row.embedding)) },
        none)
    else (kb, some KBError.shapeMismatch)

/-- The fragment string built by `search` for one row:
`f"{row['page_title']} â€” {row['section']} (chunk {row['chunk_id']}):\n{row['text']}"`
(the three characters between the title and the section are the literal bytes
of the source file). -/
def formatFragment (row : KBRow) : String :=
  row.page_title ++ " â€” " ++ row.«section» ++ " (chunk " ++
    toString row.chunk_id ++ "):\n" ++ row.text

/-- The similarity vector `self._embedding_matrix @ (query_vector / norm)`
computed by `search`. -/
def simsOf (sqrtFn : ℚ → ℚ) (embed : String → List ℚ) (M : List (List ℚ))
    (query : String) : List ℚ :=
  let query_vector := embed query
  let norm := sqrtFn (norm2 query_vector)
  let normalized_query := query_vector.map (fun x => x / norm)
  M.map (fun row => dotQ row normalized_query)

/-- Comparison behind the *stable* ascending argsort: index `i` precedes
index `j` when its similarity is smaller, equal similarities being ordered
by index.  This is one admissible resolution of `np.argsort`'s contract —
the one numpy's default sort actually computes below its insertion-sort
cutoff (16 elements), used here only to instantiate the external argsort
parameter at concrete inputs.  It is *not* assumed in the ranking theorem,
whose hypotheses are only the argsort contract itself. -/
def simLe (sims : List ℚ) (i j : ℕ) : Bool :=
  decide (sims.getD i 0 < sims.getD j 0) ||
    (decide (sims.getD i 0 = sims.getD j 0) && decide (i ≤ j))

/-- Insert an index into a sorted index list (insertion sort step). -/
def insertLe (le : ℕ → ℕ → Bool) (i : ℕ) : List ℕ → List ℕ
  | [] => [i]
  | j :: rest => if le i j then i :: j :: rest else j :: insertLe le i rest

/-- Insertion sort of an index list. -/
def sortLe (le : ℕ → ℕ → Bool) : List ℕ → List ℕ
  | [] => []
  | i :: rest => insertLe le i (sortLe le rest)

/-- The stable ascending argsort: the indices `0, …, n-1` sorted by
ascending similarity, ties by ascending index.  A correct implementation of
`np.argsort`'s contract, and the one numpy computes for arrays below its
insertion-sort cutoff; for larger arrays the default quicksort leaves the
order of equal keys unspecified, which is why `searchWith` below takes the
argsort as an explicit external parameter and `argsort` is used only to
evaluate the model at concrete (small) inputs. -/
def argsort (sims : List ℚ) : List ℕ :=
  sortLe (simLe sims) (List.range sims.length)

/-- Python's `a[-top_n:]` on an index list, after `top_n` was clamped to the
length: for `top_n = 0` the slice `a[-0:] = a[0:]` is the whole list. -/
def pySliceLast (l : List ℕ) (k : ℕ) : List ℕ :=
  if k = 0 then l else l.drop (l.length - k)

/-- Model of `KnowledgeBase.search(query, top_n)` (lines 45–73), with the
library routine `np.argsort` as the explicit external parameter
`argsortImpl` (its contract — a permutation of `0, …, n-1` ascending by
similarity — is all numpy guarantees: the default quicksort's order on equal
keys is unspecified beyond the insertion-sort cutoff).  A blank query
(`not query.strip()`, modelled by `pyStrip`) returns empty lists before the
loaded check; an unloaded base raises; a
zero-norm query vector returns empty lists; otherwise the `top_n` indices of
highest similarity are taken from the reversed tail of the ascending argsort
and mapped to formatted fragments and scores. -/
def KnowledgeBase.searchWith (argsortImpl : List ℚ → List ℕ) (sqrtFn : ℚ → ℚ)
    (embed : String → List ℚ) (kb : KnowledgeBase) (query : String) (top_n : ℕ) :
    Except SearchError (List String × List ℚ) :=
  if pyStrip query.data = [] then Except.ok ([], [])
  else
    match kb._df, kb._embedding_matrix with
    | some df, some M =>
      if sqrtFn (norm2 (embed query)) = 0 then Except.ok ([], [])
      else
        let similarities := simsOf sqrtFn embed M query
        let top_n := min top_n similarities.length
        let top_indices := (pySliceLast (argsortImpl similarities) top_n).reverse
        Except.ok
          (top_indices.map (fun idx => formatFragment (df.getD idx ⟨"", "", 0, "", []⟩)),
            top_indices.map (fun idx => similarities.getD idx 0))
    | _, _ => Except.error SearchError.notLoaded

/-- `KnowledgeBase.search` evaluated with the stable argsort — the concrete
refinement used to run the model on small inputs, where it coincides with
numpy's actual behaviour. -/
def KnowledgeBase.search (sqrtFn : ℚ → ℚ) (embed : String → List ℚ)
    (kb : KnowledgeBase) (query : String) (top_n : ℕ) :
    Except SearchError (List String × List ℚ) :=
  KnowledgeBase.searchWith argsort sqrtFn embed kb query top_n

/-! ## The text normalizer (`src/lesson14/wiki_data/wiki_parser.py`, `clean_text`)

The five `re.sub` patterns are specialised matchers over `Str`: each returns
the length of the (unique, leftmost-at-this-position) match starting at the
head of the given suffix, or `none`.  The non-greedy bodies make every match
deterministic: an opening literal, then the shortest stretch reaching the
closing literal. -/

/-- Index of the leftmost occurrence of the nonempty pattern `pat` in `s`. -/
def findSub (pat : Str) : Str → Option ℕ
  | [] => none
  | c :: rest =>
    if pat.isPrefixOf (c :: rest) then some 0
    else (findSub pat rest).map (fun n => n + 1)

/-- Like `findSub`, but refusing to scan past a newline: the `File`,
`Image` and `Category` patterns are compiled without `re.DOTALL`, so their
lazy bodies cannot cross a line break. -/
def findSubNoNl (pat : Str) : Str → Option ℕ
  | [] => none
  | c :: rest =>
    if pat.isPrefixOf (c :: rest) then some 0
    else if c = '\n' then none
    else (findSubNoNl pat rest).map (fun n => n + 1)

/-- Case-insensitive prefix test (`re.IGNORECASE` over ASCII literals). -/
def ciPrefixOf : Str → Str → Bool
  | [], _ => true
  | _ :: _, [] => false
  | p :: ps, c :: cs => (p.toLower == c.toLower) && ciPrefixOf ps cs

/-- Matcher for the reference pattern (`<ref`, then everything up to the
first `>`, then lazily to the first `</ref>`; `re.DOTALL`). -/
def matchRef (s : Str) : Option ℕ :=
  if ("<ref".data).isPrefixOf s then
    match findSub [('>' : Char)] (s.drop 4) with
    | none => none
    | some g =>
      match findSub ("</ref>".data) (s.drop (4 + g + 1)) with
      | none => none
      | some m => some (4 + g + 1 + m + 6)
  else none

/-- Matcher for the template pattern: two opening braces, lazily to the
first two closing braces (`re.DOTALL`). -/
def matchTmpl (s : Str) : Option ℕ :=
  if ("\x7b\x7b".data).isPrefixOf s then
    match findSub ("\x7d\x7d".data) (s.drop 2) with
    | none => none
    | some m => some (2 + m + 2)
  else none

/-- Matcher for the file/image link pattern: `[[File:` or `[[Image:`
(case-insensitive), lazily to the first `]]` on the same line. -/
def matchFile (s : Str) : Option ℕ :=
  if ciPrefixOf ("[[file:".data) s then
    match findSubNoNl ("]]".data) (s.drop 7) with
    | none => none
    | some m => some (7 + m + 2)
  else if ciPrefixOf ("[[image:".data) s then
    match findSubNoNl ("]]".data) (s.drop 8) with
    | none => none
    | some m => some (8 + m + 2)
  else none

/-- Matcher for the category link pattern: `[[Category:`
(case-insensitive), lazily to the first `]]` on the same line. -/
def matchCat (s : Str) : Option ℕ :=
  if ciPrefixOf ("[[category:".data) s then
    match findSubNoNl ("]]".data) (s.drop 11) with
    | none => none
    | some m => some (11 + m + 2)
  else none

/-- Matcher for the bare-URL pattern: `http://` or `https://` followed by at
least one (and then greedily all) non-whitespace characters. -/
def matchUrl (s : Str) : Option ℕ :=
  let p : ℕ := if ("https://".data).isPrefixOf s then 8
    else if ("http://".data).isPrefixOf s then 7 else 0
  if p = 0 then none
  else
    let k := ((s.drop p).takeWhile (fun c => !pyIsSpace c)).length
    if k = 0 then none else some (p + k)

/-- Global `re.sub(pattern, " ", s)` for a matcher `m`: scan left to right,
replace each (non-overlapping, never empty) match by a single space and
resume after it.  `fuel ≥ s.length` gives the real behaviour; the fuel keeps
the recursion structural. -/
def subLoop (m : Str → Option ℕ) : ℕ → Str → Str
  | 0, s => s
  | fuel + 1, s =>
    match s with
    | [] => []
    | c :: rest =>
      match m (c :: rest) with
      | some (n + 1) => ' ' :: subLoop m fuel ((c :: rest).drop (n + 1))
      | _ => c :: subLoop m fuel rest

/-- Model of `re.sub(pattern, " ", s)` with enough fuel for the whole string. -/
def subPat (m : Str → Option ℕ) (s : Str) : Str := subLoop m s.length s

/-- One pass of the whitespace collapse `re.sub` with pattern backslash-s-plus:
the flag records whether the scan is inside a whitespace run whose single
replacement space has already been emitted. -/
def collapseGo : Bool → Str → Str
  | _, [] => []
  | inRun, c :: rest =>
    if pyIsSpace c then
      if inRun then collapseGo true rest
      else ' ' :: collapseGo true rest
    else c :: collapseGo false rest

/-- Collapse every whitespace run to a single space. -/
def collapseWs (s : Str) : Str := collapseGo false s

/-- `clean_text(text)` (`src/lesson14/wiki_data/wiki_parser.py`, lines
162–177).  The first stage — `mwparserfromhell.parse`, removal of every
template node, `strip_code()` — is the external library boundary and enters
as the parameter `strip_code`; the five `re.sub` substitutions, the
whitespace collapse, and the `strip()` calls are modelled exactly. -/
def clean_text (strip_code : Str → Str) (text : Str) : Str :=
  let plain := pyStrip (strip_code text)
  let plain := subPat matchRef plain
  let plain := subPat matchTmpl plain
  let plain := subPat matchFile plain
  let plain := subPat matchCat plain
  let plain := subPat matchUrl plain
  let plain := collapseWs plain
  pyStrip plain

/-- Head of the string is not whitespace (or the string is empty). -/
def noWsFront : Str → Bool
  | [] => true
  | c :: _ => !pyIsSpace c

/-- Whitespace-normal form: every whitespace character is a plain space and
no two whitespace characters are adjacent — the shape `collapseWs` produces. -/
def WsNormal (w : Str) : Prop :=
  (∀ c ∈ w, pyIsSpace c = true → c = ' ') ∧
    List.Chain' (fun a b => ¬(pyIsSpace a = true ∧ pyIsSpace b = true)) w

/-- Concrete instantiation of the external `mwparserfromhell` stage for the
C7 counterexample, reproducing the library's behaviour on the two inputs the
counterexample feeds it: a wikilink whose title is broken by a newline is
not parsed as a link (MediaWiki link titles cannot span lines), so the raw
text passes through unchanged; the well-formed file link `[[File:a b]]` is
parsed as a `Wikilink` node, whose strip yields its title `File:a b`.
Every other string is left unchanged (no other string reaches the stage
in the counterexample). -/
def stripCodeCE : Str → Str := fun s =>
  if s = "[[File:a b]]".data then "File:a b".data else s

theorem splitGoF_ne_nil (d0 : Char) (dr : Str) (fuel : ℕ) (s acc : Str) :
    splitGoF d0 dr fuel s acc ≠ [] := by
  induction fuel generalizing s acc with
  | zero => cases s <;> simp [splitGoF]
  | succ fuel ih =>
    cases s with
    | nil => simp [splitGoF]
    | cons c rest =>
      rw [splitGoF]
      split
      · exact List.cons_ne_nil _ _
      · exact ih rest (c :: acc)

theorem splitOnL_ne_nil (d s : Str) : splitOnL d s ≠ [] := by
  cases d with
  | nil => simp [splitOnL]
  | cons d0 dr => exact splitGoF_ne_nil d0 dr s.length s []

theorem intercalateL_cons_of_ne_nil (d : Str) (x : Str) (l : List Str) (h : l ≠ []) :
    intercalateL d (x :: l) = x ++ d ++ intercalateL d l := by
  cases l with
  | nil => exact absurd rfl h
  | cons y rest => rfl

/-- Round trip for the worker: re-joining the split pieces restores the
scanned text (with the pending accumulator in front). -/
theorem intercalateL_splitGoF (d0 : Char) (dr : Str) (fuel : ℕ) (s acc : Str)
    (hfuel : s.length ≤ fuel) :
    intercalateL (d0 :: dr) (splitGoF d0 dr fuel s acc) = acc.reverse ++ s := by
  induction fuel generalizing s acc with
  | zero =>
    have : s = [] := List.length_eq_zero.mp (Nat.le_zero.mp hfuel)
    subst this
    simp [splitGoF, intercalateL]
  | succ fuel ih =>
    cases s with
    | nil => simp [splitGoF, intercalateL]
    | cons c rest =>
      rw [splitGoF]
      split
      case isTrue hpre =>
        rw [intercalateL_cons_of_ne_nil _ _ _ (splitGoF_ne_nil d0 dr fuel _ [])]
        rw [ih (rest.drop dr.length) []
          (by simp only [List.length_drop]; simp only [List.length_cons] at hfuel; omega)]
        have hp : d0 :: dr <+: c :: rest := List.isPrefixOf_iff_prefix.mp hpre
        obtain ⟨t, ht⟩ := hp
        have hc : c = d0 := by
          have := congrArg (fun l => l.headD d0) ht
          simpa using this.symm
        have hrest : rest = dr ++ t := by
          have := congrArg List.tail ht
          simpa using this.symm
        subst hc hrest
        simp [List.drop_left' (rfl : dr.length = dr.length)]
      case isFalse =>
        rw [ih rest (c :: acc) (by simp only [List.length_cons] at hfuel; omega)]
        simp

/-- Round trip `delimiter.join(string.split(delimiter)) == string` — the split/join round
trip (Python guarantees this for any nonempty separator; for the empty
separator our `splitOnL` returns `[s]`, so it holds there too). -/
theorem intercalateL_splitOnL (d s : Str) : intercalateL d (splitOnL d s) = s := by
  cases d with
  | nil => simp [splitOnL, intercalateL]
  | cons d0 dr => simpa using intercalateL_splitGoF d0 dr s.length s [] (Nat.le_refl _)

/-- Joining a split at an interior position restores the join of the whole
list of pieces. -/
theorem intercalateL_take_drop (d : Str) (l : List Str) (i : ℕ)
    (h1 : i ≠ 0) (h2 : i < l.length) :
    intercalateL d (l.take i) ++ d ++ intercalateL d (l.drop i) = intercalateL d l := by
  induction l generalizing i with
  | nil => simp at h2
  | cons x rest ih =>
    match i, h1 with
    | j + 1, _ =>
      by_cases hj : j = 0
      · subst hj
        have hrest : rest ≠ [] := by
          intro h
          rw [h] at h2
          simp at h2
        simp only [List.take_succ_cons, List.take_zero, List.drop_succ_cons, List.drop_zero]
        rw [intercalateL_cons_of_ne_nil d x rest hrest]
        simp [intercalateL]
      · have hj2 : j < rest.length := by
          simp only [List.length_cons] at h2
          omega
        have htake : rest.take j ≠ [] := by
          intro h
          have := congrArg List.length h
          simp [Nat.min_eq_left (Nat.le_of_lt hj2)] at this
          exact hj this
        have hrest : rest ≠ [] := by
          intro h
          rw [h] at hj2
          simp at hj2
        simp only [List.take_succ_cons, List.drop_succ_cons]
        rw [intercalateL_cons_of_ne_nil d x (rest.take j) htake,
          intercalateL_cons_of_ne_nil d x rest hrest, ← ih j hj hj2]
        simp

/-- Characterisation of the balance loop: starting at index `i` with current
best `B` (and `fuel` further iterations available), the loop stops at an
index `j` in range such that the tracked difference strictly improved at
every step before `j`, and at `j` either the difference failed to improve or
the pieces ran out. -/
theorem balanceGoF_spec (tok : Str → ℕ) (delim : Str) (chunks : List Str) (halfway : ℕ)
    (fuel i B : ℕ) (hn : i + 1 + fuel = chunks.length) :
    i ≤ balanceGoF tok delim chunks halfway fuel i B ∧
      balanceGoF tok delim chunks halfway fuel i B < chunks.length ∧
      (∀ k, i ≤ k → k < balanceGoF tok delim chunks halfway fuel i B →
        prefixDiff tok delim chunks halfway k <
          (if k = i then B else prefixDiff tok delim chunks halfway (k - 1))) ∧
      ((if balanceGoF tok delim chunks halfway fuel i B = i then B
          else prefixDiff tok delim chunks halfway
            (balanceGoF tok delim chunks halfway fuel i B - 1)) ≤
          prefixDiff tok delim chunks halfway
            (balanceGoF tok delim chunks halfway fuel i B) ∨
        balanceGoF tok delim chunks halfway fuel i B + 1 = chunks.length) := by
  induction fuel generalizing i B with
  | zero =>
    have hj : balanceGoF tok delim chunks halfway 0 i B = i := by
      rw [balanceGoF]
      split <;> rfl
    rw [hj]
    refine ⟨Nat.le_refl i, by omega, ?_, Or.inr (by omega)⟩
    intro k hk1 hk2
    omega
  | succ fuel ih =>
    by_cases hB : B ≤ prefixDiff tok delim chunks halfway i
    · have hj : balanceGoF tok delim chunks halfway (fuel + 1) i B = i := by
        rw [balanceGoF]
        simp [hB]
      rw [hj]
      refine ⟨Nat.le_refl i, by omega, ?_, Or.inl (by simp [hB])⟩
      intro k hk1 hk2
      omega
    · have hj : balanceGoF tok delim chunks halfway (fuel + 1) i B =
          balanceGoF tok delim chunks halfway fuel (i + 1)
            (prefixDiff tok delim chunks halfway i) := by
        rw [balanceGoF]
        simp [hB]
      rw [hj]
      obtain ⟨h1, h2, h3, h4⟩ :=
        ih (i + 1) (prefixDiff tok delim chunks halfway i) (by omega)
      refine ⟨by omega, h2, ?_, ?_⟩
      · intro k hk1 hk2
        rcases Nat.eq_or_lt_of_le hk1 with hk | hk
        · subst hk
          rw [if_pos rfl]
          omega
        · have hne : k ≠ i := by omega
          have h3k := h3 k (by omega) hk2
          by_cases hk1' : k = i + 1
          · subst hk1'
            simp only [if_pos rfl] at h3k
            simp only [if_neg hne]
            simpa using h3k
          · simp only [if_neg hk1'] at h3k
            simp only [if_neg hne]
            exact h3k
      · rcases h4 with h4 | h4
        · left
          have hne : balanceGoF tok delim chunks halfway fuel (i + 1)
              (prefixDiff tok delim chunks halfway i) ≠ i := by omega
          rw [if_neg hne]
          by_cases he : balanceGoF tok delim chunks halfway fuel (i + 1)
              (prefixDiff tok delim chunks halfway i) = i + 1
          · rw [if_pos he] at h4
            rw [he] at h4 ⊢
            simpa using h4
          · rwa [if_neg he] at h4
        · exact Or.inr h4

/-- A strictly improving scan makes the last examined difference the minimum
over everything scanned. -/
theorem chain_min (D : ℕ → ℕ) (B j : ℕ)
    (hchain : ∀ k, k < j → D k < (if k = 0 then B else D (k - 1))) :
    ∀ a b, a ≤ b → b < j → D b ≤ D a := by
  intro a b hab hbj
  induction b with
  | zero =>
    have : a = 0 := by omega
    simp [this]
  | succ b ihb =>
    rcases Nat.eq_or_lt_of_le hab with h | h
    · simp [h]
    · have hc := hchain (b + 1) hbj
      rw [if_neg (by omega)] at hc
      simp only [Nat.add_sub_cancel] at hc
      have := ihb (by omega) (by omega)
      omega

theorem halvedCore_three (tok : Str → ℕ) (string delimiter : Str) (a b c : Str)
    (rest : List Str) :
    halvedCore tok string delimiter (a :: b :: c :: rest) =
      (intercalateL delimiter ((a :: b :: c :: rest).take
          (balanceScan tok delimiter (a :: b :: c :: rest) (tok string / 2))),
        intercalateL delimiter ((a :: b :: c :: rest).drop
          (balanceScan tok delimiter (a :: b :: c :: rest) (tok string / 2)))) := rfl

theorem balanceScan_lt (tok : Str → ℕ) (delim : Str) (chunks : List Str) (halfway : ℕ)
    (h : chunks ≠ []) : balanceScan tok delim chunks halfway < chunks.length := by
  have hlen : 1 ≤ chunks.length := List.length_pos.mpr h
  exact (balanceGoF_spec tok delim chunks halfway (chunks.length - 1) 0 halfway
    (by omega)).2.1

theorem balanceScan_chain (tok : Str → ℕ) (delim : Str) (chunks : List Str) (halfway : ℕ)
    (h : chunks ≠ []) :
    ∀ k, k < balanceScan tok delim chunks halfway →
      prefixDiff tok delim chunks halfway k <
        (if k = 0 then halfway else prefixDiff tok delim chunks halfway (k - 1)) := by
  have hlen : 1 ≤ chunks.length := List.length_pos.mpr h
  intro k hk
  exact (balanceGoF_spec tok delim chunks halfway (chunks.length - 1) 0 halfway
    (by omega)).2.2.1 k (Nat.zero_le k) hk

/-- C2, counterexample.  With sizes measured by character count, splitting
`"aa\naaaaaaaa\naaaaaaaa"` on `"\n"` selects `"aa\naaaaaaaa"` (measured size
11) as left half, although half of the whole string's measured size is 10 and
the one-piece prefix `"aa"` (measured size 2) does not exceed that half: the
balance search minimises the absolute distance to the half greedily and can
overshoot it, so the selected prefix is not "the closest without exceeding". -/
theorem claim2_balance_counterexample :
    halved_by_delimiter List.length ("aa\naaaaaaaa\naaaaaaaa".data) ("\n".data) =
        ("aa\naaaaaaaa".data, "aaaaaaaa".data) ∧
      ("aa\naaaaaaaa\naaaaaaaa".data).length / 2 < ("aa\naaaaaaaa".data : Str).length ∧
      ((splitOnL ("\n".data) ("aa\naaaaaaaa\naaaaaaaa".data)).take 1 =
        ["aa".data]) ∧
      (intercalateL ("\n".data) ["aa".data] : Str).length ≤
        ("aa\naaaaaaaa\naaaaaaaa".data).length / 2 := by
  refine ⟨by decide, by decide, by decide, by decide⟩

/-- C2 (amended): when the string splits into three or more pieces, the
balance search walks the prefixes left to right, tracking the absolute
difference between the prefix's measured size and half of the whole string's
measured size; it stops at the first prefix whose difference fails to strictly
improve (or at the last piece) and selects as left half the pieces strictly
before the stopping index.  The selected prefix's difference is minimal among
all scanned prefixes, but its measured size may exceed the half. -/
theorem claim2_balance_amended (tok : Str → ℕ) (string delimiter : Str)
    (h3 : 3 ≤ (splitOnL delimiter string).length) :
    ∃ i < (splitOnL delimiter string).length,
      halved_by_delimiter tok string delimiter =
          (intercalateL delimiter ((splitOnL delimiter string).take i),
            intercalateL delimiter ((splitOnL delimiter string).drop i)) ∧
        (∀ k, k < i →
          prefixDiff tok delimiter (splitOnL delimiter string) (tok string / 2) k <
            (if k = 0 then tok string / 2
              else prefixDiff tok delimiter (splitOnL delimiter string) (tok string / 2)
                (k - 1))) ∧
        (∀ k, k < i →
          prefixDiff tok delimiter (splitOnL delimiter string) (tok string / 2) (i - 1) ≤
            prefixDiff tok delimiter (splitOnL delimiter string) (tok string / 2) k) := by
  rcases hsp : splitOnL delimiter string with _ | ⟨a, _ | ⟨b, _ | ⟨c, rest⟩⟩⟩
  · rw [hsp] at h3
    simp at h3
  · rw [hsp] at h3
    simp at h3
  · rw [hsp] at h3
    simp at h3
  · have hne : (a :: b :: c :: rest : List Str) ≠ [] := List.cons_ne_nil _ _
    refine ⟨balanceScan tok delimiter (a :: b :: c :: rest) (tok string / 2),
      balanceScan_lt tok delimiter _ _ hne, ?_, ?_, ?_⟩
    · rw [halved_by_delimiter, hsp, halvedCore_three]
    · exact balanceScan_chain tok delimiter _ _ hne
    · intro k hk
      exact chain_min (prefixDiff tok delimiter (a :: b :: c :: rest) (tok string / 2))
        (tok string / 2) (balanceScan tok delimiter (a :: b :: c :: rest) (tok string / 2))
        (balanceScan_chain tok delimiter _ _ hne) k
        (balanceScan tok delimiter (a :: b :: c :: rest) (tok string / 2) - 1)
        (by omega) (by omega)

/-- C2 amended, witness at a concrete input: `"aa\nbb\ncc"` splits into three
pieces on `"\n"` and the amended balance characterisation holds there. -/
theorem claim2_balance_witness :
    ∃ i < (splitOnL ("\n".data) ("aa\nbb\ncc".data)).length,
      halved_by_delimiter List.length ("aa\nbb\ncc".data) ("\n".data) =
          (intercalateL ("\n".data)
              ((splitOnL ("\n".data) ("aa\nbb\ncc".data)).take i),
            intercalateL ("\n".data)
              ((splitOnL ("\n".data) ("aa\nbb\ncc".data)).drop i)) ∧
        (∀ k, k < i →
          prefixDiff List.length ("\n".data) (splitOnL ("\n".data) ("aa\nbb\ncc".data))
              (List.length ("aa\nbb\ncc".data) / 2) k <
            (if k = 0 then List.length ("aa\nbb\ncc".data) / 2
              else prefixDiff List.length ("\n".data)
                (splitOnL ("\n".data) ("aa\nbb\ncc".data))
                (List.length ("aa\nbb\ncc".data) / 2) (k - 1))) ∧
        (∀ k, k < i →
          prefixDiff List.length ("\n".data) (splitOnL ("\n".data) ("aa\nbb\ncc".data))
              (List.length ("aa\nbb\ncc".data) / 2) (i - 1) ≤
            prefixDiff List.length ("\n".data) (splitOnL ("\n".data) ("aa\nbb\ncc".data))
              (List.length ("aa\nbb\ncc".data) / 2) k) :=
  claim2_balance_amended List.length ("aa\nbb\ncc".data) ("\n".data) (by decide)

/-- C10: whenever `halved_by_delimiter` returns two non-empty halves, joining
the left half, the delimiter and the right half reproduces the original
string exactly; no content is lost or duplicated by a single halving step. -/
theorem claim10_halved_join (tok : Str → ℕ) (string delimiter : Str)
    (hl : (halved_by_delimiter tok string delimiter).1 ≠ [])
    (hr : (halved_by_delimiter tok string delimiter).2 ≠ []) :
    (halved_by_delimiter tok string delimiter).1 ++ delimiter ++
      (halved_by_delimiter tok string delimiter).2 = string := by
  have hrt := intercalateL_splitOnL delimiter string
  rcases hsp : splitOnL delimiter string with _ | ⟨a, _ | ⟨b, _ | ⟨c, rest⟩⟩⟩
  · exact absurd hsp (splitOnL_ne_nil delimiter string)
  · rw [halved_by_delimiter, hsp] at hr
    simp [halvedCore] at hr
  · rw [halved_by_delimiter, hsp] at hl hr ⊢
    rw [hsp] at hrt
    simp only [halvedCore]
    simpa [intercalateL] using hrt
  · rw [halved_by_delimiter, hsp] at hl hr ⊢
    rw [hsp] at hrt
    rw [halvedCore_three] at hl hr ⊢
    have hne : (a :: b :: c :: rest : List Str) ≠ [] := List.cons_ne_nil _ _
    have hilt := balanceScan_lt tok delimiter (a :: b :: c :: rest) (tok string / 2) hne
    have hi0 : balanceScan tok delimiter (a :: b :: c :: rest) (tok string / 2) ≠ 0 := by
      intro h0
      rw [h0] at hl
      simp [intercalateL] at hl
    rw [intercalateL_take_drop delimiter _ _ hi0 hilt]
    exact hrt

/-- C10, witness at a concrete input: splitting `"ab\ncd"` on `"\n"` gives the
nonempty halves `"ab"` and `"cd"`, and joining them with the delimiter
restores the original string. -/
theorem claim10_halved_join_witness :
    (halved_by_delimiter List.length ("ab\ncd".data) ("\n".data)).1 ++ ("\n".data) ++
      (halved_by_delimiter List.length ("ab\ncd".data) ("\n".data)).2 = "ab\ncd".data :=
  claim10_halved_join List.length ("ab\ncd".data) ("\n".data) (by decide) (by decide)

theorem intercalateL_append_singleton (d : Str) (ts : List Str) (x : Str) (h : ts ≠ []) :
    intercalateL d (ts ++ [x]) = intercalateL d ts ++ d ++ x := by
  induction ts with
  | nil => exact absurd rfl h
  | cons t ts ih =>
    cases ts with
    | nil => simp [intercalateL]
    | cons t' ts' =>
      rw [List.cons_append, intercalateL_cons_of_ne_nil d t ((t' :: ts') ++ [x]) (by simp),
        intercalateL_cons_of_ne_nil d t (t' :: ts') (by simp), ih (by simp)]
      simp

theorem flatten_take_prefix_flatten (l : List Str) (k : ℕ) :
    (l.take k).flatten <+: l.flatten :=
  ⟨(l.drop k).flatten, by rw [← List.flatten_append, List.take_append_drop]⟩

/-- The candidate string of `split_strings_from_subsection` starts with the
joined label list. -/
theorem labels_prefix_candidate (titles : List Str) (x : Str) :
    intercalateL ("\n\n".data) titles <+: intercalateL ("\n\n".data) (titles ++ [x]) := by
  cases h : titles with
  | nil => simp [intercalateL]
  | cons t ts =>
    rw [← h, intercalateL_append_singleton _ _ _ (by simp [h])]
    exact ⟨"\n\n".data ++ x, by simp⟩

theorem encChar_flatten (s : Str) : (encChar s).flatten = s := by
  induction s with
  | nil => rfl
  | cons c rest ih => simpa [encChar] using ih

/-- C3, counterexample to the "largest prefix" clause.  With the tokenizer
`encCE3` and budget 1, the section `([], "abc")` exhausts the recursion
ceiling immediately and the truncation fallback returns the decoded one-token
prefix `"ab"`; its measured size is 2 > 1, and the largest prefix of the
candidate fitting the budget is `"a"`, not `"ab"`: token-aligned truncation
is not the largest fitting prefix for a general size function. -/
theorem claim3_chunk_size_counterexample :
    split_strings_from_subsection encCE3 ([], ("abc".data)) 1 0 = [("ab".data)] ∧
      ("ab".data : Str) = truncated_string encCE3 ("abc".data) 1 ∧
      1 < num_tokens encCE3 ("ab".data) ∧
      claimLargestPrefixFitting (num_tokens encCE3) ("abc".data) 1 = "a".data ∧
      ("ab".data : Str) ≠ "a".data := by
  refine ⟨by decide, by decide, by decide, by decide, by decide⟩

/-- C3 (amended): for every tokenizer, section, positive budget and recursion
ceiling, each fragment returned by `split_strings_from_subsection` either has
measured size at most `max_tokens`, or is the truncation fallback of some
candidate string — the decode of the candidate's first `max_tokens` tokens,
which need not be the largest prefix whose measured size fits the budget. -/
theorem claim3_chunk_size_amended (encode : Str → List Str) (subsection : List Str × Str)
    (max_tokens : ℕ) (hmax : 0 < max_tokens) (max_recursion : ℕ) :
    ∀ f ∈ split_strings_from_subsection encode subsection max_tokens max_recursion,
      num_tokens encode f ≤ max_tokens ∨
        ∃ cand, f = truncated_string encode cand max_tokens := by
  induction max_recursion generalizing subsection with
  | zero =>
    intro f hf
    rw [split_strings_from_subsection] at hf
    dsimp only at hf
    split at hf
    · left
      rw [List.mem_singleton.mp hf]
      assumption
    · right
      exact ⟨_, List.mem_singleton.mp hf⟩
  | succ mr ih =>
    intro f hf
    rw [split_strings_from_subsection] at hf
    dsimp only at hf
    split at hf
    · left
      rw [List.mem_singleton.mp hf]
      assumption
    · rcases hfg : firstGoodSplit (num_tokens encode) subsection.2
          ["\n\n".data, "\n".data, ". ".data] with _ | lr
      · rw [hfg] at hf
        dsimp only at hf
        right
        exact ⟨_, List.mem_singleton.mp hf⟩
      · rw [hfg] at hf
        dsimp only at hf
        rcases List.mem_append.mp hf with h | h
        · exact ih (subsection.1, lr.1) f h
        · exact ih (subsection.1, lr.2) f h

/-- C3 amended, witness at a concrete input: with the one-character-per-token
tokenizer, budget 5 and section `([], "ab")`, the single returned fragment
`"ab"` satisfies the amended size bound. -/
theorem claim3_chunk_size_witness :
    num_tokens encChar ("ab".data) ≤ 5 ∨
      ∃ cand, ("ab".data : Str) = truncated_string encChar cand 5 :=
  claim3_chunk_size_amended encChar ([], ("ab".data)) 5 (by decide) 0 ("ab".data) (by decide)

/-- C4, counterexample.  With the one-character-per-token tokenizer, budget 1
and recursion ceiling 0, the section `(["AB"], "CD")` is handled by the
truncation fallback, which returns the fragment `"A"`; that fragment does not
begin with the section's joined heading labels `"AB"`: truncation can cut
into the labels. -/
theorem claim4_label_counterexample :
    split_strings_from_subsection encChar ([("AB".data)], ("CD".data)) 1 0 =
        [("A".data)] ∧
      ¬ (intercalateL ("\n\n".data) [("AB".data)] <+: ("A".data : Str)) := by
  constructor
  · decide
  · intro h
    have hlen := h.length_le
    simp [intercalateL] at hlen

/-- C4 (amended): provided decoding the tokenizer's output restores the input
(`tiktoken` round trip), every fragment returned by
`split_strings_from_subsection` either begins with the section's ordered
heading labels joined by blank lines, or is the truncation fallback of a
candidate string that begins with those labels — in which case the fragment
is a (possibly label-cutting) prefix of that candidate. -/
theorem claim4_label_amended (encode : Str → List Str) (subsection : List Str × Str)
    (max_tokens : ℕ) (max_recursion : ℕ)
    (hdec : ∀ s, (encode s).flatten = s) :
    ∀ f ∈ split_strings_from_subsection encode subsection max_tokens max_recursion,
      intercalateL ("\n\n".data) subsection.1 <+: f ∨
        ∃ cand, intercalateL ("\n\n".data) subsection.1 <+: cand ∧
          f = truncated_string encode cand max_tokens ∧ f <+: cand := by
  induction max_recursion generalizing subsection with
  | zero =>
    intro f hf
    rw [split_strings_from_subsection] at hf
    dsimp only at hf
    split at hf
    · left
      rw [List.mem_singleton.mp hf]
      exact labels_prefix_candidate subsection.1 subsection.2
    · right
      refine ⟨intercalateL ("\n\n".data) (subsection.1 ++ [subsection.2]),
        labels_prefix_candidate subsection.1 subsection.2, List.mem_singleton.mp hf, ?_⟩
      rw [List.mem_singleton.mp hf, truncated_string]
      have := flatten_take_prefix_flatten
        (encode (intercalateL ("\n\n".data) (subsection.1 ++ [subsection.2]))) max_tokens
      rwa [hdec] at this
  | succ mr ih =>
    intro f hf
    rw [split_strings_from_subsection] at hf
    dsimp only at hf
    split at hf
    · left
      rw [List.mem_singleton.mp hf]
      exact labels_prefix_candidate subsection.1 subsection.2
    · rcases hfg : firstGoodSplit (num_tokens encode) subsection.2
          ["\n\n".data, "\n".data, ". ".data] with _ | lr
      · rw [hfg] at hf
        dsimp only at hf
        right
        refine ⟨intercalateL ("\n\n".data) (subsection.1 ++ [subsection.2]),
          labels_prefix_candidate subsection.1 subsection.2, List.mem_singleton.mp hf, ?_⟩
        rw [List.mem_singleton.mp hf, truncated_string]
        have := flatten_take_prefix_flatten
          (encode (intercalateL ("\n\n".data) (subsection.1 ++ [subsection.2]))) max_tokens
        rwa [hdec] at this
      · rw [hfg] at hf
        dsimp only at hf
        rcases List.mem_append.mp hf with h | h
        · exact ih (subsection.1, lr.1) f h
        · exact ih (subsection.1, lr.2) f h

/-- C4 amended, witness at a concrete input: the fragment returned for the
small section `(["T"], "u")` begins with its joined labels. -/
theorem claim4_label_witness :
    intercalateL ("\n\n".data) [("T".data)] <+: ("T\n\nu".data : Str) ∨
      ∃ cand, intercalateL ("\n\n".data) [("T".data)] <+: cand ∧
        ("T\n\nu".data : Str) = truncated_string encChar cand 10 ∧
        ("T\n\nu".data : Str) <+: cand :=
  claim4_label_amended encChar ([("T".data)], ("u".data)) 10 0 encChar_flatten
    ("T\n\nu".data) (by decide)

/-- C6: `split_strings_from_subsection` terminates for every input —
`max_recursion + 1` units of call fuel always suffice to compute its value —
and the depth of its tree of recursive self-calls never exceeds the
configured `max_recursion` ceiling. -/
theorem claim6_split_terminates (encode : Str → List Str) (subsection : List Str × Str)
    (max_tokens : ℕ) (max_recursion : ℕ) :
    splitFuel encode (max_recursion + 1) subsection max_tokens max_recursion =
        some (split_strings_from_subsection encode subsection max_tokens max_recursion) ∧
      splitCallDepth encode subsection max_tokens max_recursion ≤ max_recursion := by
  induction max_recursion generalizing subsection with
  | zero =>
    constructor
    · rw [splitFuel, split_strings_from_subsection]
      dsimp only
      split <;> rfl
    · rw [splitCallDepth]
  | succ mr ih =>
    constructor
    · rw [splitFuel, split_strings_from_subsection]
      dsimp only
      split
      · rfl
      · rcases hfg : firstGoodSplit (num_tokens encode) subsection.2
            ["\n\n".data, "\n".data, ". ".data] with _ | lr
        · rfl
        · dsimp only
          rw [(ih (subsection.1, lr.1)).1, (ih (subsection.1, lr.2)).1]
    · rw [splitCallDepth]
      dsimp only
      split
      · omega
      · rcases hfg : firstGoodSplit (num_tokens encode) subsection.2
            ["\n\n".data, "\n".data, ". ".data] with _ | lr
        · dsimp only
          omega
        · dsimp only
          have h1 := (ih (subsection.1, lr.1)).2
          have h2 := (ih (subsection.1, lr.2)).2
          have hm : Nat.max (splitCallDepth encode (subsection.1, lr.1) max_tokens mr)
              (splitCallDepth encode (subsection.1, lr.2) max_tokens mr) ≤ mr :=
            Nat.max_le.mpr (And.intro h1 h2)
          omega

theorem insertLe_perm (le : ℕ → ℕ → Bool) (i : ℕ) (l : List ℕ) :
    List.Perm (insertLe le i l) (i :: l) := by
  induction l with
  | nil => exact List.Perm.refl _
  | cons j rest ih =>
    rw [insertLe]
    split
    · exact List.Perm.refl _
    · exact (ih.cons j).trans (List.Perm.swap i j rest)

theorem sortLe_perm (le : ℕ → ℕ → Bool) (l : List ℕ) : List.Perm (sortLe le l) l := by
  induction l with
  | nil => exact List.Perm.refl _
  | cons i rest ih => exact (insertLe_perm le i (sortLe le rest)).trans (ih.cons i)

theorem mem_insertLe (le : ℕ → ℕ → Bool) (i x : ℕ) (l : List ℕ) :
    x ∈ insertLe le i l ↔ x = i ∨ x ∈ l := by
  rw [(insertLe_perm le i l).mem_iff]
  simp

theorem insertLe_pairwise (le : ℕ → ℕ → Bool)
    (htot : ∀ a b, le a b = true ∨ le b a = true)
    (htr : ∀ a b c, le a b = true → le b c = true → le a c = true) (i : ℕ) (l : List ℕ)
    (h : l.Pairwise (fun a b => le a b = true)) :
    (insertLe le i l).Pairwise (fun a b => le a b = true) := by
  induction l with
  | nil => simp [insertLe]
  | cons j rest ih =>
    rw [List.pairwise_cons] at h
    rw [insertLe]
    split
    case isTrue hij =>
      rw [List.pairwise_cons]
      refine ⟨?_, List.pairwise_cons.mpr h⟩
      intro b hb
      rcases List.mem_cons.mp hb with hb | hb
      · rw [hb]
        exact hij
      · exact htr i j b hij (h.1 b hb)
    case isFalse hij =>
      rw [List.pairwise_cons]
      refine ⟨?_, ih h.2⟩
      intro b hb
      rcases (mem_insertLe le i b rest).mp hb with hb | hb
      · rcases htot i j with hr | hr
        · exact absurd hr (by simpa using hij)
        · rw [hb]
          exact hr
      · exact h.1 b hb

theorem sortLe_pairwise (le : ℕ → ℕ → Bool)
    (htot : ∀ a b, le a b = true ∨ le b a = true)
    (htr : ∀ a b c, le a b = true → le b c = true → le a c = true) (l : List ℕ) :
    (sortLe le l).Pairwise (fun a b => le a b = true) := by
  induction l with
  | nil => simp [sortLe]
  | cons i rest ih => exact insertLe_pairwise le htot htr i (sortLe le rest) ih

theorem simLe_total (sims : List ℚ) (a b : ℕ) :
    simLe sims a b = true ∨ simLe sims b a = true := by
  simp only [simLe, Bool.or_eq_true, Bool.and_eq_true, decide_eq_true_eq]
  rcases lt_trichotomy (sims.getD a 0) (sims.getD b 0) with h | h | h
  · exact Or.inl (Or.inl h)
  · rcases Nat.le_total a b with hab | hab
    · exact Or.inl (Or.inr ⟨h, hab⟩)
    · exact Or.inr (Or.inr ⟨h.symm, hab⟩)
  · exact Or.inr (Or.inl h)

theorem simLe_trans (sims : List ℚ) (a b c : ℕ) (h1 : simLe sims a b = true)
    (h2 : simLe sims b c = true) : simLe sims a c = true := by
  simp only [simLe, Bool.or_eq_true, Bool.and_eq_true, decide_eq_true_eq] at h1 h2 ⊢
  rcases h1 with h1 | h1 <;> rcases h2 with h2 | h2
  · exact Or.inl (h1.trans h2)
  · exact Or.inl (h2.1 ▸ h1)
  · exact Or.inl (h1.1 ▸ h2)
  · exact Or.inr ⟨h1.1.trans h2.1, h1.2.trans h2.2⟩

theorem simLe_le (sims : List ℚ) (a b : ℕ) (h : simLe sims a b = true) :
    sims.getD a 0 ≤ sims.getD b 0 := by
  simp only [simLe, Bool.or_eq_true, Bool.and_eq_true, decide_eq_true_eq] at h
  rcases h with h | h
  · exact le_of_lt h
  · exact le_of_eq h.1

theorem argsort_perm (sims : List ℚ) :
    List.Perm (argsort sims) (List.range sims.length) :=
  sortLe_perm (simLe sims) (List.range sims.length)

theorem argsort_pairwise (sims : List ℚ) :
    (argsort sims).Pairwise (fun a b => simLe sims a b = true) :=
  sortLe_pairwise (simLe sims) (simLe_total sims) (simLe_trans sims) (List.range sims.length)

theorem pairwise_and_of {α : Type} {R S : α → α → Prop} :
    ∀ {l : List α}, l.Pairwise R → l.Pairwise S → l.Pairwise (fun a b => R a b ∧ S a b)
  | [], _, _ => List.Pairwise.nil
  | _ :: _, hR, hS =>
    List.Pairwise.cons
      (fun b hb => ⟨(List.pairwise_cons.mp hR).1 b hb, (List.pairwise_cons.mp hS).1 b hb⟩)
      (pairwise_and_of (List.pairwise_cons.mp hR).2 (List.pairwise_cons.mp hS).2)

/-- C5: a batch whose embedding vectors do not all share one length makes
`load` fail with the `ShapeMismatch` condition (`np.vstack` raises before
either field is assigned), and the knowledge-base state is returned exactly
as it was — no partial commit. -/
theorem claim5_load_shape_mismatch (sqrtFn : ℚ → ℚ) (kb : KnowledgeBase)
    (rows : List KBRow)
    (h : ∃ r1 ∈ rows, ∃ r2 ∈ rows, r1.embedding.length ≠ r2.embedding.length) :
    KnowledgeBase.load sqrtFn kb rows = (kb, some KBError.shapeMismatch) := by
  obtain ⟨r1, hr1, r2, hr2, hne⟩ := h
  match rows, hr1, hr2 with
  | r :: rest, hr1, hr2 =>
    have hcond : ¬ (rest.all (fun r2 => r2.embedding.length == r.embedding.length) = true) := by
      intro hall
      rw [List.all_eq_true] at hall
      have key : ∀ x ∈ r :: rest, x.embedding.length = r.embedding.length := by
        intro x hx
        rcases List.mem_cons.mp hx with hx | hx
        · rw [hx]
        · simpa using hall x hx
      exact hne ((key r1 hr1).trans (key r2 hr2).symm)
    rw [KnowledgeBase.load, if_neg hcond]

/-- C5, witness at a concrete input: loading two rows whose vectors have
lengths 1 and 2 fails with `ShapeMismatch` and leaves the (unloaded) state
untouched. -/
theorem claim5_load_shape_mismatch_witness :
    KnowledgeBase.load (fun x => x) ⟨"winter", "url", none, none⟩
        [⟨"p", "s", 0, "t", [1]⟩, ⟨"p", "s", 1, "t", [1, 2]⟩] =
      (⟨"winter", "url", none, none⟩, some KBError.shapeMismatch) :=
  claim5_load_shape_mismatch (fun x => x) ⟨"winter", "url", none, none⟩
    [⟨"p", "s", 0, "t", [1]⟩, ⟨"p", "s", 1, "t", [1, 2]⟩]
    ⟨⟨"p", "s", 0, "t", [1]⟩, by simp, ⟨"p", "s", 1, "t", [1, 2]⟩, by simp, by simp⟩

/-- C8: on a loaded index, a query vector of zero norm or an empty stored
matrix makes `search` return empty result lists without failing (whatever
`top_n` is). -/
theorem claim8_search_empty (sqrtFn : ℚ → ℚ) (embed : String → List ℚ)
    (kb : KnowledgeBase) (df : List KBRow) (M : List (List ℚ)) (query : String)
    (top_n : ℕ) (hdf : kb._df = some df) (hM : kb._embedding_matrix = some M)
    (h : sqrtFn (norm2 (embed query)) = 0 ∨ M = []) :
    KnowledgeBase.search sqrtFn embed kb query top_n = Except.ok ([], []) := by
  rw [KnowledgeBase.search, KnowledgeBase.searchWith]
  by_cases hq : pyStrip query.data = []
  · rw [if_pos hq]
  · rw [if_neg hq, hdf, hM]
    dsimp only
    by_cases h0 : sqrtFn (norm2 (embed query)) = 0
    · rw [if_pos h0]
    · rw [if_neg h0]
      rcases h with h | hM0
      · exact absurd h h0
      · subst hM0
        simp [simsOf, argsort, sortLe, pySliceLast]

/-- C8, witness at a concrete input: a loaded one-row index searched with an
embedding gateway that returns the empty (zero-norm) vector yields empty
results and no error. -/
theorem claim8_search_empty_witness :
    KnowledgeBase.search (fun x => x) (fun _ => [])
        ⟨"kb", "url", some [⟨"p", "s", 0, "t", [1]⟩], some [[1]]⟩ "hello" 5 =
      Except.ok ([], []) :=
  claim8_search_empty (fun x => x) (fun _ => [])
    ⟨"kb", "url", some [⟨"p", "s", 0, "t", [1]⟩], some [[1]]⟩
    [⟨"p", "s", 0, "t", [1]⟩] [[1]] "hello" 5 rfl rfl (Or.inl rfl)

/-- C9, counterexample.  On a never-loaded knowledge base, `search` with a
blank query returns empty result lists instead of failing: the blank-query
check precedes the loaded check, so not every call on an unloaded index
fails with `NotLoaded`. -/
theorem claim9_notloaded_counterexample :
    (⟨"kb", "url", none, none⟩ : KnowledgeBase)._df = none ∧
      KnowledgeBase.search (fun x => x) (fun _ => [(1 : ℚ)])
          ⟨"kb", "url", none, none⟩ "" 3 = Except.ok ([], []) ∧
      (Except.ok (([], []) : List String × List ℚ) :
          Except SearchError (List String × List ℚ)) ≠
        Except.error SearchError.notLoaded := by
  refine ⟨rfl, rfl, by simp⟩

/-- C9 (amended): on a knowledge base on which no successful load has
completed (either field still `None`), every call to `search` whose query is
not blank (`query.strip()` nonempty) fails with the `NotLoaded` condition. -/
theorem claim9_notloaded_amended (sqrtFn : ℚ → ℚ) (embed : String → List ℚ)
    (kb : KnowledgeBase) (query : String) (top_n : ℕ)
    (hun : kb._df = none ∨ kb._embedding_matrix = none)
    (hq : pyStrip query.data ≠ []) :
    KnowledgeBase.search sqrtFn embed kb query top_n =
      Except.error SearchError.notLoaded := by
  rw [KnowledgeBase.search, KnowledgeBase.searchWith, if_neg hq]
  rcases hdf : kb._df with _ | df <;> rcases hM : kb._embedding_matrix with _ | M
  · rfl
  · rfl
  · rfl
  · rw [hdf, hM] at hun
    simp at hun

/-- C9 amended, witness at a concrete input: a non-blank query on a fresh
(unloaded) knowledge base fails with `NotLoaded`. -/
theorem claim9_notloaded_witness :
    KnowledgeBase.search (fun x => x) (fun _ => [(1 : ℚ)])
        ⟨"kb", "url", none, none⟩ "hello" 3 =
      Except.error SearchError.notLoaded :=
  claim9_notloaded_amended (fun x => x) (fun _ => [(1 : ℚ)])
    ⟨"kb", "url", none, none⟩ "hello" 3 (Or.inl rfl) (by decide)

theorem argsort_length (sims : List ℚ) : (argsort sims).length = sims.length := by
  rw [(argsort_perm sims).length_eq, List.length_range]

theorem mem_argsort (sims : List ℚ) (i : ℕ) : i ∈ argsort sims ↔ i < sims.length := by
  rw [(argsort_perm sims).mem_iff, List.mem_range]

theorem argsort_nodup (sims : List ℚ) : (argsort sims).Nodup :=
  ((argsort_perm sims).nodup_iff).mpr (List.nodup_range _)

theorem simsOf_length (sqrtFn : ℚ → ℚ) (embed : String → List ℚ) (M : List (List ℚ))
    (query : String) : (simsOf sqrtFn embed M query).length = M.length := by
  simp [simsOf]

/-- C1, counterexample.  Two stored vectors with equal similarity to the
query: `search` returns the fragment with the *higher* load-order index
first — for a 2-element array numpy's introsort is the stable insertion
sort, whose ascending argsort the reversal turns into descending index
order — and the returned score sequence `[1, 1]` is not strictly
descending: the claim's tie-breaking direction ("lower index wins") and
strictness both fail. -/
theorem claim1_ranking_counterexample :
    KnowledgeBase.search (fun x => x) (fun _ => [(1 : ℚ), 0])
        ⟨"kb", "url",
          some [⟨"p", "s", 0, "frag0", [1, 0]⟩, ⟨"p", "s", 1, "frag1", [1, 0]⟩],
          some [[1, 0], [1, 0]]⟩ "q" 2 =
      Except.ok ([formatFragment ⟨"p", "s", 1, "frag1", [1, 0]⟩,
          formatFragment ⟨"p", "s", 0, "frag0", [1, 0]⟩], [1, 1]) ∧
      formatFragment ⟨"p", "s", 1, "frag1", [1, 0]⟩ ≠
        formatFragment ⟨"p", "s", 0, "frag0", [1, 0]⟩ := by
  constructor
  · have hs : simsOf (fun x => x) (fun _ => [(1 : ℚ), 0]) [[1, 0], [1, 0]] "q" = [1, 1] := by
      norm_num [simsOf, norm2, dotQ]
    rw [KnowledgeBase.search, KnowledgeBase.searchWith,
      if_neg (by decide : ¬(pyStrip ("q" : String).data = []))]
    dsimp only
    rw [if_neg (by norm_num [norm2, dotQ] :
      ¬((fun x : ℚ => x) (norm2 ((fun _ : String => [(1 : ℚ), 0]) "q")) = 0))]
    rw [hs]
    rfl
  · decide

/-- Sortedness half of the argsort contract, for the stable `argsort`. -/
theorem argsort_sorted (sims : List ℚ) :
    List.Pairwise (fun a b => sims.getD a 0 ≤ sims.getD b 0) (argsort sims) := by
  refine (argsort_pairwise sims).imp ?_
  intro a b h
  exact simLe_le sims a b h

/-- C1 (amended): on a loaded index, for a query vector of nonzero norm and
`top_n ≥ 1`, `search` — with the external `np.argsort` routine abstracted by
any implementation of its contract, i.e. any permutation of `0, …, n-1`
arranged in ascending similarity order — returns `min top_n n` fragments
whose similarities are non-increasing, every selected row scoring at least
as high as every unselected one.  The order among equal-similarity rows is
whatever the library's tie order yields, which the default quicksort leaves
unspecified beyond its insertion-sort regime; in particular "lower index
wins" is not guaranteed, and in the stable regime the counterexample shows
the *higher* index coming first. -/
theorem claim1_search_ranking (argsortImpl : List ℚ → List ℕ) (sqrtFn : ℚ → ℚ)
    (embed : String → List ℚ) (kb : KnowledgeBase) (df : List KBRow)
    (M : List (List ℚ)) (query : String) (top_n : ℕ)
    (hdf : kb._df = some df) (hM : kb._embedding_matrix = some M)
    (hq : pyStrip query.data ≠ []) (hnorm : sqrtFn (norm2 (embed query)) ≠ 0)
    (htop : 1 ≤ top_n)
    (hperm : List.Perm (argsortImpl (simsOf sqrtFn embed M query))
      (List.range (simsOf sqrtFn embed M query).length))
    (hsort : List.Pairwise (fun a b =>
        (simsOf sqrtFn embed M query).getD a 0 ≤
          (simsOf sqrtFn embed M query).getD b 0)
      (argsortImpl (simsOf sqrtFn embed M query))) :
    ∃ idxs : List ℕ,
      KnowledgeBase.searchWith argsortImpl sqrtFn embed kb query top_n =
          Except.ok
            (idxs.map (fun idx => formatFragment (df.getD idx ⟨"", "", 0, "", []⟩)),
              idxs.map (fun idx => (simsOf sqrtFn embed M query).getD idx 0)) ∧
        idxs.length = min top_n M.length ∧
        (∀ i ∈ idxs, i < M.length) ∧
        List.Pairwise (fun a b =>
          (simsOf sqrtFn embed M query).getD b 0 ≤
            (simsOf sqrtFn embed M query).getD a 0) idxs ∧
        (∀ i ∈ idxs, ∀ j, j < M.length → j ∉ idxs →
          (simsOf sqrtFn embed M query).getD j 0 ≤
            (simsOf sqrtFn embed M query).getD i 0) := by
  have hlen : (argsortImpl (simsOf sqrtFn embed M query)).length =
      (simsOf sqrtFn embed M query).length := by
    rw [hperm.length_eq, List.length_range]
  have hmem : ∀ i, i ∈ argsortImpl (simsOf sqrtFn embed M query) ↔
      i < (simsOf sqrtFn embed M query).length := by
    intro i
    rw [hperm.mem_iff, List.mem_range]
  refine ⟨(pySliceLast (argsortImpl (simsOf sqrtFn embed M query))
      (min top_n (simsOf sqrtFn embed M query).length)).reverse, ?_, ?_, ?_, ?_, ?_⟩
  · rw [KnowledgeBase.searchWith, if_neg hq, hdf, hM]
    dsimp only
    rw [if_neg hnorm]
  · rw [List.length_reverse]
    have hslice : pySliceLast (argsortImpl (simsOf sqrtFn embed M query))
        (min top_n (simsOf sqrtFn embed M query).length) =
        (argsortImpl (simsOf sqrtFn embed M query)).drop
          ((argsortImpl (simsOf sqrtFn embed M query)).length -
            min top_n (simsOf sqrtFn embed M query).length) := by
      rw [pySliceLast]
      by_cases ht : min top_n (simsOf sqrtFn embed M query).length = 0
      · rw [if_pos ht]
        have hlen0 : (simsOf sqrtFn embed M query).length = 0 := by omega
        have hnil : argsortImpl (simsOf sqrtFn embed M query) = [] :=
          List.eq_nil_of_length_eq_zero (by rw [hlen, hlen0])
        rw [hnil]
        simp
      · rw [if_neg ht]
    rw [hslice, List.length_drop, hlen, simsOf_length]
    omega
  · intro i hi
    rw [List.mem_reverse] at hi
    have hsub : i ∈ argsortImpl (simsOf sqrtFn embed M query) := by
      rw [pySliceLast] at hi
      split at hi
      · exact hi
      · exact List.mem_of_mem_drop hi
    rw [hmem, simsOf_length] at hsub
    exact hsub
  · have hdropsub : List.Sublist
        (pySliceLast (argsortImpl (simsOf sqrtFn embed M query))
          (min top_n (simsOf sqrtFn embed M query).length))
        (argsortImpl (simsOf sqrtFn embed M query)) := by
      rw [pySliceLast]
      split
      · exact List.Sublist.refl _
      · exact List.drop_sublist _ _
    have hpw2 := hsort.sublist hdropsub
    rw [← List.pairwise_reverse] at hpw2
    exact hpw2
  · intro i hi j hj hjn
    rw [List.mem_reverse] at hi
    rw [List.mem_reverse] at hjn
    have hjmem : j ∈ argsortImpl (simsOf sqrtFn embed M query) := by
      rw [hmem, simsOf_length]
      exact hj
    by_cases ht : min top_n (simsOf sqrtFn embed M query).length = 0
    · rw [pySliceLast, if_pos ht] at hjn
      exact absurd hjmem hjn
    · rw [pySliceLast, if_neg ht] at hi hjn
      have hsplit := List.take_append_drop
        ((argsortImpl (simsOf sqrtFn embed M query)).length -
          min top_n (simsOf sqrtFn embed M query).length)
        (argsortImpl (simsOf sqrtFn embed M query))
      have hpw := hsort
      rw [← hsplit] at hpw hjmem
      rw [List.pairwise_append] at hpw
      rcases List.mem_append.mp hjmem with hjt | hjd
      · exact hpw.2.2 j hjt i hi
      · exact absurd hjd hjn

/-- C1 amended, witness at a concrete input: a two-row index with orthogonal
unit vectors, queried with `[1, 0]` and `top_n = 1`; the argsort parameter
is instantiated with the stable `argsort`, whose contract obligations are
discharged by `argsort_perm` and `argsort_sorted`. -/
theorem claim1_search_ranking_witness :
    ∃ idxs : List ℕ,
      KnowledgeBase.searchWith argsort (fun _ => (1 : ℚ)) (fun _ => [(1 : ℚ), 0])
          ⟨"kb", "url",
            some [⟨"p", "s", 0, "frag0", [1, 0]⟩, ⟨"p", "s", 1, "frag1", [0, 1]⟩],
            some [[1, 0], [0, 1]]⟩ "q" 1 =
          Except.ok
            (idxs.map (fun idx =>
                formatFragment ([(⟨"p", "s", 0, "frag0", [1, 0]⟩ : KBRow),
                  ⟨"p", "s", 1, "frag1", [0, 1]⟩].getD idx ⟨"", "", 0, "", []⟩)),
              idxs.map (fun idx =>
                (simsOf (fun _ => (1 : ℚ)) (fun _ => [(1 : ℚ), 0])
                    [[1, 0], [0, 1]] "q").getD idx 0)) ∧
        idxs.length = min 1 ([[(1 : ℚ), 0], [0, 1]] : List (List ℚ)).length ∧
        (∀ i ∈ idxs, i < ([[(1 : ℚ), 0], [0, 1]] : List (List ℚ)).length) ∧
        List.Pairwise (fun a b =>
          (simsOf (fun _ => (1 : ℚ)) (fun _ => [(1 : ℚ), 0])
              [[1, 0], [0, 1]] "q").getD b 0 ≤
            (simsOf (fun _ => (1 : ℚ)) (fun _ => [(1 : ℚ), 0])
              [[1, 0], [0, 1]] "q").getD a 0) idxs ∧
        (∀ i ∈ idxs, ∀ j, j < ([[(1 : ℚ), 0], [0, 1]] : List (List ℚ)).length →
          j ∉ idxs →
          (simsOf (fun _ => (1 : ℚ)) (fun _ => [(1 : ℚ), 0])
              [[1, 0], [0, 1]] "q").getD j 0 ≤
            (simsOf (fun _ => (1 : ℚ)) (fun _ => [(1 : ℚ), 0])
              [[1, 0], [0, 1]] "q").getD i 0) :=
  claim1_search_ranking argsort (fun _ => (1 : ℚ)) (fun _ => [(1 : ℚ), 0])
    ⟨"kb", "url",
      some [⟨"p", "s", 0, "frag0", [1, 0]⟩, ⟨"p", "s", 1, "frag1", [0, 1]⟩],
      some [[1, 0], [0, 1]]⟩
    [⟨"p", "s", 0, "frag0", [1, 0]⟩, ⟨"p", "s", 1, "frag1", [0, 1]⟩]
    [[1, 0], [0, 1]] "q" 1 rfl rfl (by decide) (by norm_num) (by decide)
    (argsort_perm _) (argsort_sorted _)

theorem noWsFront_dropWhile (z : Str) : noWsFront (z.dropWhile pyIsSpace) = true := by
  induction z with
  | nil => rfl
  | cons c rest ih =>
    rw [List.dropWhile_cons]
    split
    · exact ih
    · simp_all [noWsFront]

theorem dropWhile_of_noWsFront (z : Str) (h : noWsFront z = true) :
    z.dropWhile pyIsSpace = z := by
  cases z with
  | nil => rfl
  | cons c rest =>
    rw [List.dropWhile_cons, if_neg]
    simp only [noWsFront, Bool.not_eq_true'] at h
    simp [h]

theorem pyStrip_pyStrip (z : Str) : pyStrip (pyStrip z) = pyStrip z := by
  have hrev : (pyStrip z).reverse = ((z.dropWhile pyIsSpace).reverse).dropWhile pyIsSpace := by
    rw [pyStrip, List.reverse_reverse]
  have h1 : noWsFront (pyStrip z).reverse = true := by
    rw [hrev]
    exact noWsFront_dropWhile _
  have h2 : noWsFront (pyStrip z) = true := by
    have hsuf : (pyStrip z).reverse <:+ (z.dropWhile pyIsSpace).reverse := by
      rw [hrev]
      exact List.dropWhile_suffix _
    have hpre : pyStrip z <+: z.dropWhile pyIsSpace := List.reverse_suffix.mp hsuf
    obtain ⟨t, ht⟩ := hpre
    have hA := noWsFront_dropWhile z
    cases hps : pyStrip z with
    | nil => rfl
    | cons b B =>
      rw [hps] at ht
      rw [← ht] at hA
      simpa [noWsFront] using hA
  conv_lhs => rw [pyStrip]
  rw [dropWhile_of_noWsFront _ h2, dropWhile_of_noWsFront _ h1, List.reverse_reverse]

theorem collapseGo_mem_ws (z : Str) (b : Bool) (c : Char) (hc : c ∈ collapseGo b z)
    (hw : pyIsSpace c = true) : c = ' ' := by
  induction z generalizing b with
  | nil => simp [collapseGo] at hc
  | cons d rest ih =>
    rw [collapseGo] at hc
    split at hc
    · split at hc
      · exact ih true hc
      · rcases List.mem_cons.mp hc with h | h
        · exact h
        · exact ih true h
    · rcases List.mem_cons.mp hc with h | h
      · subst h
        simp_all
      · exact ih false h

theorem collapseGo_chain (z : Str) (b : Bool) :
    List.Chain' (fun a b => ¬(pyIsSpace a = true ∧ pyIsSpace b = true)) (collapseGo b z) ∧
      (b = true → noWsFront (collapseGo b z) = true) := by
  induction z generalizing b with
  | nil => exact ⟨List.chain'_nil, fun _ => rfl⟩
  | cons c rest ih =>
    rw [collapseGo]
    split
    case isTrue hws =>
      split
      case isTrue hb =>
        exact ⟨(ih true).1, fun _ => (ih true).2 rfl⟩
      case isFalse hb =>
        have hout := ih true
        refine ⟨List.chain'_cons'.mpr ⟨?_, hout.1⟩, ?_⟩
        · intro y hy
          cases hcg : collapseGo true rest with
          | nil => rw [hcg] at hy; simp at hy
          | cons y0 out' =>
            rw [hcg] at hy
            simp only [List.head?_cons, Option.mem_def, Option.some.injEq] at hy
            subst hy
            have := hout.2 rfl
            rw [hcg] at this
            simp only [noWsFront, Bool.not_eq_true'] at this
            intro hcon
            rw [this] at hcon
            exact Bool.false_ne_true hcon.2
        · intro hb2
          exact absurd hb2 hb
    case isFalse hws =>
      have hout := ih false
      refine ⟨List.chain'_cons'.mpr ⟨?_, hout.1⟩, ?_⟩
      · intro y hy
        intro hcon
        rw [hcon.1] at hws
        exact hws rfl
      · intro _
        simp only [noWsFront, Bool.not_eq_true']
        exact Bool.not_eq_true _ ▸ (by simpa using hws)

theorem wsNormal_collapseWs (z : Str) : WsNormal (collapseWs z) :=
  ⟨fun c hc hw => collapseGo_mem_ws z false c hc hw, (collapseGo_chain z false).1⟩

theorem collapseGo_of_wsNormal (w : Str) (b : Bool) (hn : WsNormal w)
    (hb : b = true → noWsFront w = true) : collapseGo b w = w := by
  induction w generalizing b with
  | nil => rfl
  | cons c rest ih =>
    obtain ⟨hmem, hchain⟩ := hn
    rw [collapseGo]
    split
    case isTrue hws =>
      have hb2 : b = false := by
        cases b with
        | false => rfl
        | true =>
          have := hb rfl
          simp only [noWsFront, Bool.not_eq_true'] at this
          rw [hws] at this
          exact Bool.noConfusion this
      subst hb2
      rw [if_neg Bool.false_ne_true]
      have hc : c = ' ' := hmem c (List.mem_cons_self c rest) hws
      have hfront : noWsFront rest = true := by
        cases rest with
        | nil => rfl
        | cons y out' =>
          have := List.chain'_cons.mp hchain
          simp only [noWsFront, Bool.not_eq_true']
          by_contra hcon
          simp only [Bool.not_eq_false] at hcon
          exact this.1 ⟨hws, hcon⟩
      rw [ih true ⟨fun d hd hw => hmem d (List.mem_cons_of_mem c hd) hw,
        hchain.tail⟩ (fun _ => hfront), hc]
    case isFalse hws =>
      rw [ih false ⟨fun d hd hw => hmem d (List.mem_cons_of_mem c hd) hw,
        hchain.tail⟩ (fun h => absurd h Bool.false_ne_true)]

theorem wsNormal_reverse (w : Str) (h : WsNormal w) : WsNormal w.reverse := by
  obtain ⟨hmem, hchain⟩ := h
  refine ⟨fun c hc hw => hmem c (List.mem_reverse.mp hc) hw, ?_⟩
  rw [List.chain'_reverse]
  refine hchain.imp ?_
  intro a b hab hcon
  exact hab ⟨hcon.2, hcon.1⟩

theorem wsNormal_dropWhile (w : Str) (h : WsNormal w) :
    WsNormal (w.dropWhile pyIsSpace) := by
  obtain ⟨hmem, hchain⟩ := h
  refine ⟨fun c hc hw =>
    hmem c ((List.dropWhile_suffix pyIsSpace).sublist.mem hc) hw, ?_⟩
  exact hchain.suffix (List.dropWhile_suffix pyIsSpace)

theorem wsNormal_pyStrip (w : Str) (h : WsNormal w) : WsNormal (pyStrip w) :=
  wsNormal_reverse _ (wsNormal_dropWhile _ (wsNormal_reverse _ (wsNormal_dropWhile _ h)))

theorem collapseWs_pyStrip_collapseWs (z : Str) :
    collapseWs (pyStrip (collapseWs z)) = pyStrip (collapseWs z) :=
  collapseGo_of_wsNormal _ false (wsNormal_pyStrip _ (wsNormal_collapseWs z))
    (fun h => absurd h Bool.false_ne_true)

/-- C7, counterexample.  `clean_text` is not idempotent: on
`"[[File:a\nb]]"` — a file link broken by a newline, which the wiki-markup
stage leaves as plain text (link titles cannot span lines) and whose
file-link regex cannot match (its lazy body is compiled without `re.DOTALL`)
— the first pass only collapses the newline to a space, producing the
well-formed link `"[[File:a b]]"`.  On the second pass the external
markup stage parses that link and strips it to its title, so normalization
yields `"File:a b"` and the two passes disagree.  The external stage is
instantiated with `stripCodeCE`, which reproduces the library's behaviour
at exactly the two strings it receives here. -/
theorem claim7_normalize_counterexample :
    clean_text stripCodeCE (clean_text stripCodeCE ("[[File:a\nb]]".data)) ≠
        clean_text stripCodeCE ("[[File:a\nb]]".data) ∧
      clean_text stripCodeCE ("[[File:a\nb]]".data) = "[[File:a b]]".data ∧
      clean_text stripCodeCE (clean_text stripCodeCE ("[[File:a\nb]]".data)) =
        "File:a b".data := by
  refine ⟨by decide, by decide, by decide⟩

/-- C7 (amended): `clean_text` is idempotent on every input whose normalized
form is a fixed point of the markup stages — the external markup-stripping
stage and the five substitution patterns find nothing left to rewrite in it.
The whitespace collapse and the trims are then automatically idempotent (the
normalized form is whitespace-normal and stripped), so a second application
changes nothing.  Unconditional idempotence fails (see the counterexample):
a pass can manufacture new matches for a later pass. -/
theorem claim7_normalize_amended (strip_code : Str → Str) (x : Str)
    (h1 : strip_code (clean_text strip_code x) = clean_text strip_code x)
    (h2 : subPat matchRef (clean_text strip_code x) = clean_text strip_code x)
    (h3 : subPat matchTmpl (clean_text strip_code x) = clean_text strip_code x)
    (h4 : subPat matchFile (clean_text strip_code x) = clean_text strip_code x)
    (h5 : subPat matchCat (clean_text strip_code x) = clean_text strip_code x)
    (h6 : subPat matchUrl (clean_text strip_code x) = clean_text strip_code x) :
    clean_text strip_code (clean_text strip_code x) = clean_text strip_code x := by
  have hP : clean_text strip_code x =
      pyStrip (collapseWs (subPat matchUrl (subPat matchCat (subPat matchFile
        (subPat matchTmpl (subPat matchRef (pyStrip (strip_code x)))))))) := rfl
  have hStrip : pyStrip (clean_text strip_code x) = clean_text strip_code x := by
    conv_lhs => rw [hP]
    rw [pyStrip_pyStrip]
    exact hP.symm
  have hCollapse : collapseWs (clean_text strip_code x) = clean_text strip_code x := by
    conv_lhs => rw [hP]
    rw [collapseWs_pyStrip_collapseWs]
    exact hP.symm
  show pyStrip (collapseWs (subPat matchUrl (subPat matchCat (subPat matchFile
      (subPat matchTmpl (subPat matchRef (pyStrip (strip_code
        (clean_text strip_code x))))))))) = clean_text strip_code x
  rw [h1, hStrip, h2, h3, h4, h5, h6, hCollapse, hStrip]

/-- C7 amended, witness at a concrete input: `"abc"` is markup-free, every
stage fixes its normalized form, and normalization is idempotent there. -/
theorem claim7_normalize_witness :
    clean_text (fun s => s) (clean_text (fun s => s) ("abc".data)) =
      clean_text (fun s => s) ("abc".data) :=
  claim7_normalize_amended (fun s => s) ("abc".data) (by decide) (by decide)
    (by decide) (by decide) (by decide) (by decide)
